import Mathlib

/-!
Verification of the tile-rearrangement qualifier (`qualifier/qualifier.py`).

The embedding models Python integers as `Int` (with `divmod` as floor
division `Int.fdiv` / floor remainder `Int.fmod`, raising
`ZeroDivisionError` on a zero divisor), Python `set`s of ints as
`Finset Int`, and the decoded numpy `uint8` array as a flat row-major
`List Nat` together with its `(h, w, c)` shape.  Fallible code returns
`Except PyErr`.
-/

/-- The Python exception kinds the qualifier code can raise.
`reshapeError` stands for the `ValueError` numpy's `ndarray.reshape`
raises when the requested shape does not match the array size (or has
several negative entries); its library-generated message is distinct
from the fixed validation message `invalid_msg`. -/
inductive PyErr where
  | zeroDivisionError : PyErr
  | valueError : String → PyErr
  | indexError : PyErr
  | reshapeError : PyErr
deriving DecidableEq, Repr

/-- `prod` from qualifier.py (`reduce(lambda acc, i: acc * i, seq)`),
specialised to the 2-tuples it is applied to. -/
def prod (p : Int × Int) : Int := p.1 * p.2

/-- Python's `set(range(n))` as a `Finset Int` (empty when `n ≤ 0`). -/
def pyRange (n : Int) : Finset Int :=
  (Finset.range n.toNat).image (fun i : Nat => (i : Int))

instance {ε α : Type} [DecidableEq ε] [DecidableEq α] : DecidableEq (Except ε α) :=
  fun a b =>
    match a, b with
    | .error e, .error f =>
      if h : e = f then isTrue (by simp [h]) else isFalse (by simp [h])
    | .ok x, .ok y =>
      if h : x = y then isTrue (by simp [h]) else isFalse (by simp [h])
    | .error _, .ok _ => isFalse (by simp)
    | .ok _, .error _ => isFalse (by simp)

/-- `valid_input(image_size, tile_size, ordering)` from qualifier.py:
`tiles, remainder = divmod(prod(image_size), prod(tile_size))` followed by
`remainder == 0 and len(set(ordering)) == len(ordering) and set(ordering) == set(range(tiles))`.
Python's `divmod` on a zero divisor raises `ZeroDivisionError`; otherwise it
is floor division and floor remainder.  `len(set(ordering))` is the number of
distinct values, i.e. `ordering.toFinset.card`. -/
def valid_input (image_size tile_size : Int × Int) (ordering : List Int) :
    Except PyErr Bool :=
  if prod tile_size = 0 then .error .zeroDivisionError
  else
    let tiles := Int.fdiv (prod image_size) (prod tile_size)
    let remainder := Int.fmod (prod image_size) (prod tile_size)
    .ok (decide (remainder = 0) && decide (ordering.toFinset.card = ordering.length)
         && decide (ordering.toFinset = pyRange tiles))

/-- The decoded image: numpy's `img_arr = np.asarray(img)` of shape
`(h, w, c)` (height, width, channels), stored flat in row-major order,
pixel `(y, x, ch)` at flat index `(y*w + x)*c + ch`. -/
structure ImageBuffer where
  h : Nat
  w : Nat
  c : Nat
  data : List Nat
deriving DecidableEq, Repr

/-- Well-formedness: the flat data has exactly `h*w*c` entries, as a real
numpy array of that shape does. -/
def ImageBuffer.wf (img : ImageBuffer) : Prop :=
  img.data.length = img.h * img.w * img.c

/-- PIL's `img.size`, which is `(width, height)`. -/
def ImageBuffer.size (img : ImageBuffer) : Int × Int := ((img.w : Int), (img.h : Int))

/-- The tile `tiles[r, col]` of
`tiles = img_arr.reshape(rows, th, cols, tw, c).swapaxes(1, 2)`,
flattened over its own `(y, x, ch)` row-major indices: entry `j` of the
tile is the source entry at flat index `(((r*th + y)*cols + col)*tw + x)*c + ch`,
which is how the reshaped-and-swapped view addresses the underlying data. -/
def getTile (data : List Nat) (th tw c cols r col : Nat) : List Nat :=
  List.ofFn (fun j : Fin (th * tw * c) =>
    let y := (j : Nat) / (tw * c)
    let x := ((j : Nat) % (tw * c)) / c
    let ch := (j : Nat) % c
    data.getD ((((r * th + y) * cols + col) * tw + x) * c + ch) 0)

/-- The loop `for i, order in enumerate(ordering)` of `rearrange_tiles`,
with the running index `i` made explicit.  The state pairs the source
array `img_arr` (only read) with the `arranged_img_arr` destination tile
grid (one flat list of tiles in row-major `(row, col)` order; the write
`arranged_img_arr[row, col] = tiles[correct_row, correct_col]` sets slot
`row*cols + col`).  `row, col = divmod(i, cols)` and
`correct_row, correct_col = divmod(order, cols)` are inlined as
`i / cols`, `i % cols`, `Int.fdiv order cols`, `Int.fmod order cols`;
`divmod` raises `ZeroDivisionError` when `cols = 0`; numpy indexing
raises `IndexError` outside `[-rows, rows)` and wraps negative indices
by adding `rows` (the `correct_col` index `Int.fmod order cols` lies in
`[0, cols)` whenever `cols > 0`, so only `correct_row` and `row` can be
out of bounds). -/
def loopGo (rows cols th tw c : Nat) :
    Nat → List Int → List Nat × List (List Nat) →
      Except PyErr (List Nat × List (List Nat))
  | _, [], st => .ok st
  | i, order :: rest, st =>
    if cols = 0 then .error .zeroDivisionError
    else if (rows : Int) ≤ Int.fdiv order (cols : Int)
        ∨ Int.fdiv order (cols : Int) < -(rows : Int) then .error .indexError
    else if rows ≤ i / cols then .error .indexError
    else
      loopGo rows cols th tw c (i + 1) rest
        (st.1, st.2.set (i / cols * cols + i % cols)
          (getTile st.1 th tw c cols
            (if Int.fdiv order (cols : Int) < 0
             then Int.fdiv order (cols : Int) + (rows : Int)
             else Int.fdiv order (cols : Int)).toNat
            (Int.fmod order (cols : Int)).toNat))

/-- `arranged_img_arr.swapaxes(1, 2).reshape(img_arr.shape)`: the final
flat pixel data, read off the destination tile grid.  Flat output index
`k` decomposes row-major over the shape `(rows, th, cols, tw, c)` into
`(r, y, col, x, ch)` — that is the layout of the 5-D array after swapping
axes 1 and 2 back — and reads entry `(y*tw + x)*c + ch` of the grid tile
at slot `r*cols + col`. -/
def assemble (rows cols th tw c : Nat) (grid : List (List Nat)) : List Nat :=
  List.ofFn (fun k : Fin (rows * th * cols * tw * c) =>
    let ch := (k : Nat) % c
    let x := ((k : Nat) / c) % tw
    let col := ((k : Nat) / c / tw) % cols
    let y := ((k : Nat) / c / tw / cols) % th
    let r := (k : Nat) / c / tw / cols / th
    (grid.getD (r * cols + col) []).getD ((y * tw + x) * c + ch) 0)

/-- The fixed message of the `ValueError` raised by `rearrange_tiles` on
invalid input (verbatim from the source, which has no trailing period). -/
def invalid_msg : String :=
  "The tile size or ordering are not valid for the given image"

/-- `rearrange_tiles` from qualifier.py, on the decoded buffer (opening
the image file and saving the result are the external decode/encode
collaborators; the returned buffer is the one handed to `save`).
`tile_size` unpacks as `(tile_height, tile_width)`; `rows = img_height //
tile_height` and `cols = img_width // tile_width` are Python floor
divisions.  numpy's `reshape(rows, th, cols, tw, c)` raises `ValueError`
unless the new shape has the array's size; a shape with two or more
negative entries is likewise rejected, and with our derived `rows`/`cols`
a single negative entry always comes with a second negative or a zero
entry, so any negative entry fails too. -/
def rearrange_tiles (img : ImageBuffer) (tile_size : Int × Int) (ordering : List Int) :
    Except PyErr ImageBuffer :=
  match valid_input img.size tile_size ordering with
  | .error e => .error e
  | .ok false => .error (.valueError invalid_msg)
  | .ok true =>
    let th := tile_size.1
    let tw := tile_size.2
    let rows := Int.fdiv (img.h : Int) th
    let cols := Int.fdiv (img.w : Int) tw
    if rows < 0 ∨ th < 0 ∨ cols < 0 ∨ tw < 0 then .error .reshapeError
    else if rows.toNat * th.toNat * cols.toNat * tw.toNat * img.c ≠ img.h * img.w * img.c
    then .error .reshapeError
    else
      match loopGo rows.toNat cols.toNat th.toNat tw.toNat img.c 0 ordering
          (img.data, List.replicate (rows.toNat * cols.toNat)
            (List.replicate (th.toNat * tw.toNat * img.c) 0)) with
      | .error e => .error e
      | .ok st =>
        .ok ⟨img.h, img.w, img.c,
             assemble rows.toNat cols.toNat th.toNat tw.toNat img.c st.2⟩

/-- Observation function for stating gather semantics: the pixels of the
tile at flat slot `s` of a buffer, for tile size `(th, tw)`, flattened
over the tile's own row-major `(y, x, ch)` indices.  Slot `s` sits at
tile row `s / cols`, tile column `s % cols` with `cols = w / tw`. -/
def ImageBuffer.tile (img : ImageBuffer) (th tw s : Nat) : List Nat :=
  List.ofFn (fun j : Fin (th * tw * img.c) =>
    let y := (j : Nat) / (tw * img.c)
    let x := ((j : Nat) % (tw * img.c)) / img.c
    let ch := (j : Nat) % img.c
    let cols := img.w / tw
    img.data.getD
      (((s / cols * th + y) * img.w + (s % cols * tw + x)) * img.c + ch) 0)

/-- The identity ordering `[0, 1, ..., n-1]`. -/
def identity_ordering (n : Nat) : List Int :=
  List.map (fun i : Nat => (i : Int)) (List.range n)

/-- A concrete decoded 4x4 single-channel image with pixel values 0..15. -/
def img44 : ImageBuffer := ⟨4, 4, 1, List.range 16⟩

/-- A concrete decoded 6x4 single-channel image (height 6, width 4). -/
def img64 : ImageBuffer := ⟨6, 4, 1, List.range 24⟩

/-- The output buffer of `rearrange_tiles img44 (2, 2) [3, 2, 1, 0]`. -/
def out3210 : ImageBuffer :=
  ⟨4, 4, 1, [10, 11, 8, 9, 14, 15, 12, 13, 2, 3, 0, 1, 6, 7, 4, 5]⟩

/-! ### Arithmetic and `Finset` helpers -/

theorem pack_div {r b : Nat} (a : Nat) (h : r < b) : (a * b + r) / b = a := by
  have hb : 0 < b := Nat.lt_of_le_of_lt (Nat.zero_le r) h
  rw [Nat.add_comm, Nat.mul_comm, Nat.add_mul_div_left _ _ hb,
    Nat.div_eq_of_lt h, Nat.zero_add]

theorem pack_mod {r b : Nat} (a : Nat) (h : r < b) : (a * b + r) % b = r := by
  rw [Nat.mul_comm, Nat.mul_add_mod, Nat.mod_eq_of_lt h]

theorem mem_pyRange {x n : Int} : x ∈ pyRange n ↔ 0 ≤ x ∧ x < n := by
  constructor
  · intro hx
    simp only [pyRange, Finset.mem_image, Finset.mem_range] at hx
    obtain ⟨i, hi, rfl⟩ := hx
    omega
  · rintro ⟨h0, h1⟩
    simp only [pyRange, Finset.mem_image, Finset.mem_range]
    exact ⟨x.toNat, by omega, by omega⟩

theorem card_pyRange (n : Int) : (pyRange n).card = n.toNat := by
  rw [pyRange, Finset.card_image_of_injective _ (fun a b hab => by omega),
    Finset.card_range]

theorem toFinset_card_eq_length_iff {l : List Int} :
    l.toFinset.card = l.length ↔ l.Nodup := by
  rw [List.card_toFinset]
  constructor
  · intro h
    exact List.dedup_eq_self.mp ((List.dedup_sublist l).eq_of_length h)
  · intro h
    rw [List.dedup_eq_self.mpr h]

/-! ### Characterisation of `valid_input` -/

theorem valid_input_eq_ok (sz t : Int × Int) (ord : List Int) (ht : prod t ≠ 0) :
    valid_input sz t ord =
      .ok (decide (Int.fmod (prod sz) (prod t) = 0)
        && decide (ord.toFinset.card = ord.length)
        && decide (ord.toFinset = pyRange (Int.fdiv (prod sz) (prod t)))) := by
  simp [valid_input, ht]

theorem valid_input_ok_true (sz t : Int × Int) (ord : List Int) (ht : prod t ≠ 0) :
    valid_input sz t ord = .ok true ↔
      (Int.fmod (prod sz) (prod t) = 0 ∧ ord.Nodup ∧
       ord.toFinset = pyRange (Int.fdiv (prod sz) (prod t))) := by
  rw [valid_input_eq_ok sz t ord ht]
  simp only [Except.ok.injEq, Bool.and_eq_true, decide_eq_true_eq]
  rw [toFinset_card_eq_length_iff, and_assoc]

/-! ### C1 -/

/-- C1 as stated is false: for image size (4,4) and tile size (-2,2),
`divmod(16, -4) = (-4, 0)` gives the negative tile count -4, and
`valid_input` accepts the empty ordering even though its length 0 does not
equal the quotient -4. -/
theorem c1_counterexample :
    valid_input (4, 4) (-2, 2) [] = .ok true ∧
      ¬ ((([] : List Int).length : Int) = Int.fdiv ((4 : Int) * 4) ((-2 : Int) * 2)) := by
  exact ⟨by decide, by decide⟩

/-- C1 (amended): whenever the tile area is nonzero and the `divmod`
quotient `tileCount` is nonnegative (in particular whenever both areas are
positive), `valid_input` returns true iff the remainder is 0, the length of
the ordering equals `tileCount`, and the set of values of the ordering is
exactly `{0, ..., tileCount - 1}`. -/
theorem c1_valid_input_characterization
    (W H tW tH : Int) (ord : List Int)
    (ht : tW * tH ≠ 0) (hq : 0 ≤ Int.fdiv (W * H) (tW * tH)) :
    valid_input (W, H) (tW, tH) ord = .ok true ↔
      (Int.fmod (W * H) (tW * tH) = 0 ∧
       (ord.length : Int) = Int.fdiv (W * H) (tW * tH) ∧
       ord.toFinset = pyRange (Int.fdiv (W * H) (tW * tH))) := by
  rw [valid_input_ok_true (W, H) (tW, tH) ord (by simpa [prod] using ht)]
  show (_ ∧ ord.Nodup ∧ ord.toFinset = pyRange (Int.fdiv (W * H) (tW * tH))) ↔ _
  constructor
  · rintro ⟨h0, hnd, hset⟩
    refine ⟨h0, ?_, hset⟩
    have hc := toFinset_card_eq_length_iff.mpr hnd
    rw [hset, card_pyRange] at hc
    omega
  · rintro ⟨h0, hlen, hset⟩
    refine ⟨h0, ?_, hset⟩
    apply toFinset_card_eq_length_iff.mp
    rw [hset, card_pyRange]
    omega

/-- Witness for C1: at image (4,4), tile (2,2) and the duplicate ordering
[0,0,2,3] of the right length, `valid_input` returns false. -/
theorem c1_valid_input_characterization_witness :
    ¬ (valid_input (4, 4) (2, 2) [0, 0, 2, 3] = .ok true) := by
  rw [c1_valid_input_characterization 4 4 2 2 [0, 0, 2, 3] (by decide) (by decide)]
  decide

/-! ### C4 -/

/-- C4: the code is wrong.  `valid_input` only checks that the tile *area*
divides the image *area*: it accepts image (4,4) with tile size (8,2) and
ordering [0] although 8 divides neither image dimension, contradicting its
own docstring ("The tile size must divide each image dimension without
remainders"); `rearrange_tiles` then crashes in `reshape` on that very
input instead of working or raising the documented error. -/
theorem c4_area_only_check :
    valid_input (4, 4) (8, 2) [0] = .ok true ∧
      ¬ ((8 : Int) ∣ 4) ∧
      rearrange_tiles ⟨4, 4, 1, List.range 16⟩ (8, 2) [0] = .error .reshapeError := by
  refine ⟨by decide, by decide, by decide⟩

/-! ### C5 -/

/-- C5 as stated is false: on a zero tile dimension, `valid_input` raises
`ZeroDivisionError` (from `divmod` with divisor `prod((0, 2)) = 0`) instead
of returning false. -/
theorem c5_counterexample :
    valid_input (4, 4) (0, 2) [] = .error .zeroDivisionError := by
  decide

/-- C5 (amended): `valid_input` terminates normally with a boolean for
every combination whose tile area `tileW*tileH` is nonzero — including
negative sizes — and raises (`ZeroDivisionError`) exactly when the tile
area is zero. -/
theorem c5_valid_input_total (sz t : Int × Int) (ord : List Int) :
    (∃ b, valid_input sz t ord = .ok b) ↔ prod t ≠ 0 := by
  by_cases h : prod t = 0 <;> simp [valid_input, h]

/-! ### C10 -/

/-- C10: for a zero-area image (W = 0 or H = 0) and a tile size of positive
area, `valid_input` returns true exactly when the ordering is empty. -/
theorem c10_zero_area (W H tW tH : Int) (ord : List Int)
    (hz : W = 0 ∨ H = 0) (ht : 0 < tW * tH) :
    valid_input (W, H) (tW, tH) ord = .ok true ↔ ord = [] := by
  have h0 : W * H = 0 := by rcases hz with h | h <;> simp [h]
  rw [valid_input_ok_true (W, H) (tW, tH) ord (by show tW * tH ≠ 0; omega)]
  show (Int.fmod (W * H) (tW * tH) = 0 ∧ ord.Nodup ∧
      ord.toFinset = pyRange (Int.fdiv (W * H) (tW * tH))) ↔ _
  rw [h0, Int.zero_fmod, Int.zero_fdiv]
  constructor
  · rintro ⟨-, -, hset⟩
    have : ord.toFinset = ∅ := by
      rw [hset]; simp [pyRange]
    exact List.toFinset_eq_empty_iff _ |>.mp this
  · rintro rfl
    refine ⟨rfl, List.nodup_nil, ?_⟩
    simp [pyRange]

/-! ### Helpers for the rearrangement proofs -/

theorem fdiv_natCast (m n : Nat) :
    Int.fdiv (m : Int) (n : Int) = ((m / n : Nat) : Int) :=
  (Int.ofNat_fdiv m n).symm

theorem fmod_natCast (m n : Nat) :
    Int.fmod (m : Int) (n : Int) = ((m % n : Nat) : Int) :=
  (Int.ofNat_fmod m n).symm

theorem pack_lt {a A r b : Nat} (ha : a < A) (hr : r < b) : a * b + r < A * b := by
  have h1 : a * b + r < (a + 1) * b := by rw [Nat.succ_mul]; omega
  exact Nat.lt_of_lt_of_le h1 (Nat.mul_le_mul_right b ha)

theorem getD_set_eq {α : Type} {l : List α} {i : Nat} (a d : α) (h : i < l.length) :
    (l.set i a).getD i d = a := by
  rw [List.getD_eq_getElem _ _ (by simpa using h), List.getElem_set, if_pos rfl]

theorem getD_set_ne {α : Type} {l : List α} {i j : Nat} (a d : α) (h : i ≠ j) :
    (l.set i a).getD j d = l.getD j d := by
  by_cases hj : j < l.length
  · rw [List.getD_eq_getElem _ _ (by simpa using hj),
      List.getD_eq_getElem _ _ hj, List.getElem_set, if_neg h]
  · rw [List.getD_eq_default _ _ (by simpa using Nat.le_of_not_lt hj),
      List.getD_eq_default _ _ (Nat.le_of_not_lt hj)]

theorem getTile_getD (data : List Nat) (th tw c cols r col : Nat)
    {y x ch : Nat} (hy : y < th) (hx : x < tw) (hch : ch < c) :
    (getTile data th tw c cols r col).getD ((y * tw + x) * c + ch) 0 =
      data.getD ((((r * th + y) * cols + col) * tw + x) * c + ch) 0 := by
  have hj : (y * tw + x) * c + ch < th * tw * c := pack_lt (pack_lt hy hx) hch
  have hxc : x * c + ch < tw * c := pack_lt hx hch
  have ej : (y * tw + x) * c + ch = y * (tw * c) + (x * c + ch) := by ring
  rw [getTile, List.getD_eq_getElem _ _ (by simpa using hj), List.getElem_ofFn]
  simp only
  rw [ej, pack_div y hxc, pack_mod y hxc, pack_div x hch, ← ej, pack_mod _ hch]

theorem assemble_getD (rows cols th tw c : Nat) (grid : List (List Nat))
    {r y col x ch : Nat} (hr : r < rows) (hy : y < th) (hcol : col < cols)
    (hx : x < tw) (hch : ch < c) :
    (assemble rows cols th tw c grid).getD
        ((((r * th + y) * cols + col) * tw + x) * c + ch) 0 =
      (grid.getD (r * cols + col) []).getD ((y * tw + x) * c + ch) 0 := by
  have hk : (((r * th + y) * cols + col) * tw + x) * c + ch
      < rows * th * cols * tw * c :=
    pack_lt (pack_lt (pack_lt (pack_lt hr hy) hcol) hx) hch
  rw [assemble, List.getD_eq_getElem _ _ (by simpa using hk), List.getElem_ofFn]
  simp only
  rw [pack_mod _ hch, pack_div _ hch, pack_mod _ hx, pack_div _ hx,
    pack_mod _ hcol, pack_div _ hcol, pack_mod _ hy, pack_div _ hy]

/-- Witness for C10: `valid_input((0,4),(2,2),[])` is true while the
non-empty ordering [0] is rejected for the same sizes. -/
theorem c10_zero_area_witness :
    valid_input (0, 4) (2, 2) [] = .ok true ∧
      ¬ (valid_input (0, 4) (2, 2) [0] = .ok true) := by
  constructor
  · exact (c10_zero_area 0 4 2 2 [] (Or.inl rfl) (by decide)).mpr rfl
  · intro hc
    exact absurd ((c10_zero_area 0 4 2 2 [0] (Or.inl rfl) (by decide)).mp hc)
      (by decide)

/-! ### The rearrangement loop -/

theorem loopGo_spec (src : List Nat) (rows cols th tw c : Nat) (hc : 0 < cols)
    (l : List Int) :
    ∀ (i : Nat) (grid : List (List Nat)),
      grid.length = rows * cols →
      i + l.length ≤ rows * cols →
      (∀ o ∈ l, 0 ≤ o ∧ o < ((rows * cols : Nat) : Int)) →
      ∃ grid', loopGo rows cols th tw c i l (src, grid) = .ok (src, grid') ∧
        grid'.length = rows * cols ∧
        ∀ s, s < rows * cols →
          grid'.getD s [] =
            if i ≤ s ∧ s < i + l.length then
              getTile src th tw c cols ((l.getD (s - i) 0).toNat / cols)
                ((l.getD (s - i) 0).toNat % cols)
            else grid.getD s [] := by
  induction l with
  | nil =>
    intro i grid hglen _ _
    refine ⟨grid, rfl, hglen, fun s _ => ?_⟩
    rw [if_neg (show ¬ (i ≤ s ∧ s < i + ([] : List Int).length) by
      simp only [List.length_nil]; omega)]
  | cons o rest ih =>
    intro i grid hglen hbound hvals
    obtain ⟨ho0, hoN⟩ := hvals o (List.mem_cons_self o rest)
    obtain ⟨oN, rfl⟩ := Int.eq_ofNat_of_zero_le ho0
    have hoN' : oN < rows * cols := by exact_mod_cast hoN
    have hiN : i < rows * cols := by
      have := hbound; simp only [List.length_cons] at this; omega
    have hrowlt : i / cols < rows := (Nat.div_lt_iff_lt_mul hc).mpr hiN
    have hcrlt : oN / cols < rows := (Nat.div_lt_iff_lt_mul hc).mpr hoN'
    have hg1 : ¬ ((rows : Int) ≤ Int.fdiv (oN : Int) (cols : Int)
        ∨ Int.fdiv (oN : Int) (cols : Int) < -(rows : Int)) := by
      rw [fdiv_natCast]
      rintro (h | h)
      · exact absurd (by exact_mod_cast h : rows ≤ oN / cols) (Nat.not_le.mpr hcrlt)
      · have h0 : (0 : Int) ≤ ((oN / cols : Nat) : Int) := Int.natCast_nonneg _
        have h1 : (0 : Int) ≤ ((rows : Nat) : Int) := Int.natCast_nonneg _
        omega
    have hg2 : ¬ (rows ≤ i / cols) := Nat.not_le.mpr hrowlt
    have hcr0 : ¬ (Int.fdiv (oN : Int) (cols : Int) < 0) := by
      rw [fdiv_natCast]
      exact Int.not_lt.mpr (Int.natCast_nonneg _)
    have hidx : i / cols * cols + i % cols = i := by
      rw [Nat.mul_comm]; exact Nat.div_add_mod i cols
    have step : loopGo rows cols th tw c i ((oN : Int) :: rest) (src, grid)
        = loopGo rows cols th tw c (i + 1) rest
          (src, grid.set i (getTile src th tw c cols (oN / cols) (oN % cols))) := by
      rw [loopGo, if_neg (by omega : ¬ cols = 0), if_neg hg1, if_neg hg2,
        if_neg hcr0, fdiv_natCast, fmod_natCast, Int.toNat_natCast,
        Int.toNat_natCast, hidx]
    obtain ⟨grid', hrun, hglen', hchar⟩ :=
      ih (i + 1) (grid.set i (getTile src th tw c cols (oN / cols) (oN % cols)))
        (by rw [List.length_set]; exact hglen)
        (by simp only [List.length_cons] at hbound; omega)
        (fun o ho => hvals o (List.mem_cons_of_mem _ ho))
    refine ⟨grid', by rw [step]; exact hrun, hglen', ?_⟩
    intro s hs
    have hchar' := hchar s hs
    by_cases hsi : s = i
    · subst hsi
      rw [hchar', if_neg (by omega),
        getD_set_eq _ _ (by rw [hglen]; exact hiN),
        if_pos (by simp only [List.length_cons]; omega)]
      simp [Int.toNat_natCast]
    · by_cases hrange : i + 1 ≤ s ∧ s < i + 1 + rest.length
      · rw [hchar', if_pos hrange, if_pos (by simp only [List.length_cons]; omega)]
        have hsub : s - i = (s - (i + 1)) + 1 := by omega
        rw [hsub, List.getD_cons_succ]
      · rw [hchar', if_neg hrange, getD_set_ne _ _ (fun h => hsi h.symm),
          if_neg (by simp only [List.length_cons]; omega)]

/-- The loop never raises a `ValueError`: its own failure modes are
`ZeroDivisionError` and `IndexError` only. -/
theorem loopGo_no_valueError (rows cols th tw c : Nat) (l : List Int) :
    ∀ (i : Nat) (st : List Nat × List (List Nat)) (m : String),
      loopGo rows cols th tw c i l st ≠ .error (.valueError m) := by
  induction l with
  | nil => intro i st m h; exact absurd h (by simp [loopGo])
  | cons o rest ih =>
    intro i st m h
    rw [loopGo] at h
    by_cases h0 : cols = 0
    · rw [if_pos h0] at h; exact absurd h (by simp)
    · rw [if_neg h0] at h
      by_cases h1 : (rows : Int) ≤ Int.fdiv o (cols : Int)
          ∨ Int.fdiv o (cols : Int) < -(rows : Int)
      · rw [if_pos h1] at h; exact absurd h (by simp)
      · rw [if_neg h1] at h
        by_cases h2 : rows ≤ i / cols
        · rw [if_pos h2] at h; exact absurd h (by simp)
        · rw [if_neg h2] at h; exact ih (i + 1) _ m h

/-! ### Consequences of passing validation when the tile dims divide -/

theorem valid_facts (img : ImageBuffer) (thN twN : Nat) (ord : List Int)
    (hth : 0 < thN) (htw : 0 < twN) (hdh : thN ∣ img.h) (hdw : twN ∣ img.w)
    (hvalid : valid_input img.size ((thN : Int), (twN : Int)) ord = .ok true) :
    ord.length = (img.h / thN) * (img.w / twN) ∧
    (∀ o ∈ ord, 0 ≤ o ∧ o < (((img.h / thN) * (img.w / twN) : Nat) : Int)) ∧
    ord.Nodup ∧
    ord.toFinset = pyRange (((img.h / thN) * (img.w / twN) : Nat) : Int) := by
  have hT : img.w * img.h / (thN * twN) = (img.h / thN) * (img.w / twN) := by
    obtain ⟨a, ha⟩ := hdh
    obtain ⟨b, hb⟩ := hdw
    rw [ha, hb, Nat.mul_div_cancel_left a hth, Nat.mul_div_cancel_left b htw,
      show twN * b * (thN * a) = a * b * (thN * twN) by ring,
      Nat.mul_div_cancel _ (Nat.mul_pos hth htw)]
  have hne : prod ((thN : Int), (twN : Int)) ≠ 0 := by
    show (thN : Int) * (twN : Int) ≠ 0
    exact_mod_cast (Nat.mul_pos hth htw).ne'
  rw [valid_input_ok_true _ _ _ hne] at hvalid
  obtain ⟨-, hnd, hset⟩ := hvalid
  have hfd : Int.fdiv (prod img.size) (prod ((thN : Int), (twN : Int)))
      = (((img.h / thN) * (img.w / twN) : Nat) : Int) := by
    show Int.fdiv ((img.w : Int) * (img.h : Int)) ((thN : Int) * (twN : Int)) = _
    rw [show ((img.w : Int) * (img.h : Int)) = ((img.w * img.h : Nat) : Int) by
        push_cast; ring,
      show ((thN : Int) * (twN : Int)) = ((thN * twN : Nat) : Int) by
        push_cast; ring,
      fdiv_natCast, hT]
  rw [hfd] at hset
  refine ⟨?_, ?_, hnd, hset⟩
  · have hc := toFinset_card_eq_length_iff.mpr hnd
    rw [hset, card_pyRange, Int.toNat_natCast] at hc
    exact hc.symm
  · intro o ho
    have : o ∈ ord.toFinset := List.mem_toFinset.mpr ho
    rw [hset, mem_pyRange] at this
    exact this

/-- Core success lemma: with positive tile dimensions dividing the image
dimensions and a validated ordering, `rearrange_tiles` succeeds, and the
resulting buffer is `assemble` of a destination grid whose slot `s` holds
the full source tile at flat slot `ordering[s]` (gather semantics at the
tile-grid level). -/
theorem rearrange_tiles_ok (img : ImageBuffer) (thN twN : Nat) (ord : List Int)
    (hth : 0 < thN) (htw : 0 < twN)
    (hdh : thN ∣ img.h) (hdw : twN ∣ img.w)
    (hvalid : valid_input img.size ((thN : Int), (twN : Int)) ord = .ok true) :
    ∃ grid,
      rearrange_tiles img ((thN : Int), (twN : Int)) ord =
        .ok ⟨img.h, img.w, img.c,
             assemble (img.h / thN) (img.w / twN) thN twN img.c grid⟩ ∧
      grid.length = (img.h / thN) * (img.w / twN) ∧
      ∀ s, s < (img.h / thN) * (img.w / twN) →
        grid.getD s [] =
          getTile img.data thN twN img.c (img.w / twN)
            ((ord.getD s 0).toNat / (img.w / twN))
            ((ord.getD s 0).toNat % (img.w / twN)) := by
  obtain ⟨hlen, hmem, hnd, hset⟩ := valid_facts img thN twN ord hth htw hdh hdw hvalid
  have hneg : ¬ (Int.fdiv (img.h : Int) ((thN : Int)) < 0 ∨ ((thN : Int)) < 0
      ∨ Int.fdiv (img.w : Int) ((twN : Int)) < 0 ∨ ((twN : Int)) < 0) := by
    rw [fdiv_natCast, fdiv_natCast]
    rintro (h | h | h | h) <;>
      exact absurd h (Int.not_lt.mpr (Int.natCast_nonneg _))
  have hprod : (img.h / thN) * thN * (img.w / twN) * twN * img.c
      = img.h * img.w * img.c := by
    have e1 : img.h / thN * thN = img.h := Nat.div_mul_cancel hdh
    have e2 : img.w / twN * twN = img.w := Nat.div_mul_cancel hdw
    calc (img.h / thN) * thN * (img.w / twN) * twN * img.c
        = ((img.h / thN) * thN) * ((img.w / twN) * twN) * img.c := by ring
      _ = img.h * img.w * img.c := by rw [e1, e2]
  -- run the loop
  have hloop : ∃ grid',
      loopGo (img.h / thN) (img.w / twN) thN twN img.c 0 ord
        (img.data, List.replicate ((img.h / thN) * (img.w / twN))
          (List.replicate (thN * twN * img.c) 0)) = .ok (img.data, grid') ∧
      grid'.length = (img.h / thN) * (img.w / twN) ∧
      ∀ s, s < (img.h / thN) * (img.w / twN) →
        grid'.getD s [] =
          getTile img.data thN twN img.c (img.w / twN)
            ((ord.getD s 0).toNat / (img.w / twN))
            ((ord.getD s 0).toNat % (img.w / twN)) := by
    rcases Nat.eq_zero_or_pos ((img.h / thN) * (img.w / twN)) with hN0 | hNpos
    · have hnil : ord = [] := List.length_eq_zero.mp (by rw [hlen, hN0])
      subst hnil
      refine ⟨List.replicate ((img.h / thN) * (img.w / twN))
        (List.replicate (thN * twN * img.c) 0), rfl, List.length_replicate _ _,
        fun s hs => absurd hs (by omega)⟩
    · have hc : 0 < img.w / twN := by
        rcases Nat.eq_zero_or_pos (img.w / twN) with h0 | h
        · rw [h0, Nat.mul_zero] at hNpos; omega
        · exact h
      obtain ⟨grid', hrun, hglen', hchar⟩ :=
        loopGo_spec img.data (img.h / thN) (img.w / twN) thN twN img.c hc ord 0
          (List.replicate ((img.h / thN) * (img.w / twN))
            (List.replicate (thN * twN * img.c) 0))
          (List.length_replicate _ _) (by omega) hmem
      refine ⟨grid', hrun, hglen', fun s hs => ?_⟩
      have := hchar s hs
      rw [if_pos ⟨Nat.zero_le s, by omega⟩, Nat.sub_zero] at this
      exact this
  obtain ⟨grid', hrun, hglen', hchar⟩ := hloop
  refine ⟨grid', ?_, hglen', hchar⟩
  simp only [rearrange_tiles, hvalid]
  rw [if_neg hneg]
  simp only [fdiv_natCast, Int.toNat_natCast]
  rw [if_neg (not_ne_iff.mpr hprod), hrun]

/-- Pixel-level gather through `assemble`: the output pixel in destination
tile `(r, col)` at in-tile offset `(y, x, ch)` is the source pixel at the
same in-tile offset of the source tile at flat slot `ordering[r*cols+col]`. -/
theorem assemble_pixel (rows cols th tw c : Nat) (data : List Nat) (ord : List Int)
    (grid : List (List Nat))
    (hchar : ∀ s, s < rows * cols →
      grid.getD s [] = getTile data th tw c cols ((ord.getD s 0).toNat / cols)
        ((ord.getD s 0).toNat % cols))
    {r y col x ch : Nat} (hr : r < rows) (hy : y < th) (hcol : col < cols)
    (hx : x < tw) (hch : ch < c) :
    (assemble rows cols th tw c grid).getD
        ((((r * th + y) * cols + col) * tw + x) * c + ch) 0 =
      data.getD ((((((ord.getD (r * cols + col) 0).toNat / cols) * th + y) * cols
        + (ord.getD (r * cols + col) 0).toNat % cols) * tw + x) * c + ch) 0 := by
  rw [assemble_getD rows cols th tw c grid hr hy hcol hx hch,
    hchar (r * cols + col) (pack_lt hr hcol),
    getTile_getD data th tw c cols _ _ hy hx hch]

/-! ### C8 -/

/-- C8: whenever `rearrange_tiles` succeeds, the output buffer has exactly
the input's height, width and channel count (and the same flat size). -/
theorem c8_shape_preservation (img : ImageBuffer) (t : Int × Int) (ord : List Int)
    (out : ImageBuffer) (wf : img.wf)
    (hok : rearrange_tiles img t ord = .ok out) :
    out.h = img.h ∧ out.w = img.w ∧ out.c = img.c ∧
      out.data.length = img.data.length := by
  rw [rearrange_tiles] at hok
  rcases hv : valid_input img.size t ord with e | b
  · rw [hv] at hok; exact absurd hok (by simp)
  · rw [hv] at hok
    cases b
    · exact absurd hok (by simp)
    · simp only at hok
      split at hok
      · exact absurd hok (by simp)
      · split at hok
        · exact absurd hok (by simp)
        · split at hok
          · exact absurd hok (by simp)
          · rename_i hneg hsize scrut st heq
            rw [Except.ok.injEq] at hok
            subst hok
            refine ⟨rfl, rfl, rfl, ?_⟩
            show (assemble _ _ _ _ _ st.2).length = img.data.length
            rw [assemble, List.length_ofFn, wf]
            exact not_ne_iff.mp hsize

/-- Witness for C8 at a concrete input. -/
theorem c8_shape_preservation_witness :
    rearrange_tiles img44 (2, 2) [3, 2, 1, 0] = .ok out3210 ∧
      out3210.h = img44.h ∧ out3210.w = img44.w ∧ out3210.c = img44.c ∧
      out3210.data.length = img44.data.length := by
  have h : rearrange_tiles img44 (2, 2) [3, 2, 1, 0] = .ok out3210 := by decide
  exact ⟨h, c8_shape_preservation img44 (2, 2) [3, 2, 1, 0] out3210 (by rfl) h⟩

/-! ### C2 -/

/-- C2 as stated is false: image 4x6 (width 4, height 6) with tile size
(4, 2) and ordering [0,1,2] passes validation (areas 24 and 8, tile count
3, ordering a permutation of {0,1,2}), yet `rearrange_tiles` raises
numpy's reshape `ValueError` instead of performing the gather — the tile
height 4 does not divide the image height 6, which validation never
checked. -/
theorem c2_counterexample :
    valid_input ((4 : Int), (6 : Int)) ((4 : Int), (2 : Int)) [0, 1, 2] = .ok true ∧
      rearrange_tiles img64 (4, 2) [0, 1, 2] = .error .reshapeError :=
  ⟨by decide, by decide⟩


/-- A buffer's tile observation coincides with the reshaped-view tile
`getTile` once the tile width exactly divides the buffer width. -/
theorem tile_eq_getTile (img : ImageBuffer) (th tw cols s : Nat) (htw : 0 < tw)
    (hw : cols * tw = img.w) :
    img.tile th tw s = getTile img.data th tw img.c cols (s / cols) (s % cols) := by
  have hc : img.w / tw = cols := by rw [← hw, Nat.mul_div_cancel _ htw]
  unfold ImageBuffer.tile getTile
  refine congrArg List.ofFn (funext fun j => ?_)
  simp only
  rw [hc]
  congr 1
  rw [← hw]; ring

/-- Two `getTile` views are equal once they agree pixel-by-pixel. -/
theorem getTile_eq_of_pixel (data1 data2 : List Nat) (th tw c cols r1 col1 r2 col2 : Nat)
    (h : ∀ y x ch, y < th → x < tw → ch < c →
      data1.getD ((((r1 * th + y) * cols + col1) * tw + x) * c + ch) 0
        = data2.getD ((((r2 * th + y) * cols + col2) * tw + x) * c + ch) 0) :
    getTile data1 th tw c cols r1 col1 = getTile data2 th tw c cols r2 col2 := by
  unfold getTile
  refine congrArg List.ofFn (funext fun j => ?_)
  simp only
  have hj : (j : Nat) < th * tw * c := j.isLt
  have hpos : 0 < th * tw * c := Nat.lt_of_le_of_lt (Nat.zero_le _) hj
  have hcpos : 0 < c := by
    rcases Nat.eq_zero_or_pos c with h0 | h1
    · rw [h0, Nat.mul_zero] at hpos; omega
    · exact h1
  have htwc : 0 < tw * c := Nat.mul_pos
    (by rcases Nat.eq_zero_or_pos tw with h0 | h1
        · rw [h0, Nat.mul_zero, Nat.zero_mul] at hpos; omega
        · exact h1) hcpos
  have hy : (j : Nat) / (tw * c) < th :=
    (Nat.div_lt_iff_lt_mul htwc).mpr (by rw [← Nat.mul_assoc]; exact hj)
  have hx : (j : Nat) % (tw * c) / c < tw :=
    (Nat.div_lt_iff_lt_mul hcpos).mpr (Nat.mod_lt _ htwc)
  have hch : (j : Nat) % c < c := Nat.mod_lt _ hcpos
  exact h _ _ _ hy hx hch

theorem div_mul_add_mod (m n : Nat) : m / n * n + m % n = m := by
  rw [Nat.mul_comm]; exact Nat.div_add_mod m n

/-- C2 (amended): for every input passing validation in which moreover the
tile dimensions are positive and divide the corresponding image
dimensions, `rearrange_tiles` succeeds and implements gather semantics:
the destination tile at each flat slot `s` equals, pixel-by-pixel and
channel-by-channel, the source tile at flat slot `ordering[s]`. -/
theorem c2_gather_semantics (img : ImageBuffer) (thN twN : Nat) (ord : List Int)
    (hth : 0 < thN) (htw : 0 < twN) (hdh : thN ∣ img.h) (hdw : twN ∣ img.w)
    (hvalid : valid_input img.size ((thN : Int), (twN : Int)) ord = .ok true) :
    ∃ out, rearrange_tiles img ((thN : Int), (twN : Int)) ord = .ok out ∧
      ∀ s, s < (img.h / thN) * (img.w / twN) →
        out.tile thN twN s = img.tile thN twN (ord.getD s 0).toNat := by
  obtain ⟨grid, hre, hglen, hchar⟩ :=
    rearrange_tiles_ok img thN twN ord hth htw hdh hdw hvalid
  refine ⟨_, hre, ?_⟩
  intro s hs
  have hcols_pos : 0 < img.w / twN := by
    rcases Nat.eq_zero_or_pos (img.w / twN) with h0 | h1
    · rw [h0, Nat.mul_zero] at hs; omega
    · exact h1
  have hw : (img.w / twN) * twN = img.w := Nat.div_mul_cancel hdw
  have hr : s / (img.w / twN) < img.h / thN :=
    (Nat.div_lt_iff_lt_mul hcols_pos).mpr hs
  have hcolb : s % (img.w / twN) < img.w / twN := Nat.mod_lt _ hcols_pos
  rw [tile_eq_getTile ⟨img.h, img.w, img.c,
      assemble (img.h / thN) (img.w / twN) thN twN img.c grid⟩
      thN twN (img.w / twN) s htw hw,
    tile_eq_getTile img thN twN (img.w / twN) ((ord.getD s 0).toNat) htw hw]
  show getTile (assemble (img.h / thN) (img.w / twN) thN twN img.c grid)
      thN twN img.c (img.w / twN) (s / (img.w / twN)) (s % (img.w / twN))
    = getTile img.data thN twN img.c (img.w / twN)
      ((ord.getD s 0).toNat / (img.w / twN)) ((ord.getD s 0).toNat % (img.w / twN))
  apply getTile_eq_of_pixel
  intro y x ch hy hx hch
  rw [assemble_pixel (img.h / thN) (img.w / twN) thN twN img.c img.data ord grid
    hchar hr hy hcolb hx hch, div_mul_add_mod s (img.w / twN)]

/-- Witness for C2 at a concrete input: 4x4 image, 2x2 tiles, ordering
[3,2,1,0]. -/
theorem c2_gather_semantics_witness :
    ∃ out, rearrange_tiles img44 (2, 2) [3, 2, 1, 0] = .ok out ∧
      ∀ s, s < (img44.h / 2) * (img44.w / 2) →
        out.tile 2 2 s = img44.tile 2 2 (([3, 2, 1, 0] : List Int).getD s 0).toNat :=
  c2_gather_semantics img44 2 2 [3, 2, 1, 0] (by decide) (by decide)
    (by decide) (by decide) (by decide)

/-! ### C7 -/

theorem identity_ordering_getD {n s : Nat} (hs : s < n) :
    (identity_ordering n).getD s 0 = (s : Int) := by
  rw [identity_ordering,
    List.getD_eq_getElem _ _ (by rw [List.length_map, List.length_range]; exact hs),
    List.getElem_map, List.getElem_range]

theorem identity_ordering_valid (img : ImageBuffer) (thN twN : Nat)
    (hth : 0 < thN) (htw : 0 < twN) (hdh : thN ∣ img.h) (hdw : twN ∣ img.w) :
    valid_input img.size ((thN : Int), (twN : Int))
      (identity_ordering ((img.h / thN) * (img.w / twN))) = .ok true := by
  have hne : prod ((thN : Int), (twN : Int)) ≠ 0 := by
    show (thN : Int) * (twN : Int) ≠ 0
    exact_mod_cast (Nat.mul_pos hth htw).ne'
  have hT : img.w * img.h / (thN * twN) = (img.h / thN) * (img.w / twN) := by
    obtain ⟨a, ha⟩ := hdh
    obtain ⟨b, hb⟩ := hdw
    rw [ha, hb, Nat.mul_div_cancel_left a hth, Nat.mul_div_cancel_left b htw,
      show twN * b * (thN * a) = a * b * (thN * twN) by ring,
      Nat.mul_div_cancel _ (Nat.mul_pos hth htw)]
  have hdvd : (thN * twN) ∣ (img.w * img.h) := by
    obtain ⟨a, ha⟩ := hdh
    obtain ⟨b, hb⟩ := hdw
    exact ⟨b * a, by rw [ha, hb]; ring⟩
  rw [valid_input_ok_true _ _ _ hne]
  refine ⟨?_, ?_, ?_⟩
  · show Int.fmod ((img.w : Int) * (img.h : Int)) ((thN : Int) * (twN : Int)) = 0
    rw [show ((img.w : Int) * (img.h : Int)) = ((img.w * img.h : Nat) : Int) by
        push_cast; ring,
      show ((thN : Int) * (twN : Int)) = ((thN * twN : Nat) : Int) by
        push_cast; ring,
      fmod_natCast, Nat.mod_eq_zero_of_dvd hdvd]
    rfl
  · exact (List.nodup_range _).map (fun a b hab => by omega)
  · show (identity_ordering _).toFinset
        = pyRange (Int.fdiv ((img.w : Int) * (img.h : Int)) ((thN : Int) * (twN : Int)))
    rw [show ((img.w : Int) * (img.h : Int)) = ((img.w * img.h : Nat) : Int) by
        push_cast; ring,
      show ((thN : Int) * (twN : Int)) = ((thN * twN : Nat) : Int) by
        push_cast; ring,
      fdiv_natCast, hT]
    apply Finset.ext
    intro x
    rw [mem_pyRange, List.mem_toFinset, identity_ordering]
    constructor
    · intro hx
      obtain ⟨i, hi, rfl⟩ := List.mem_map.mp hx
      rw [List.mem_range] at hi
      omega
    · rintro ⟨h0, h1⟩
      exact List.mem_map.mpr ⟨x.toNat, List.mem_range.mpr (by omega), by omega⟩

/-- Decomposition of a flat index over the shape `(rows, th, cols, tw, c)`:
bounds of the five components and the recomposition identity. -/
theorem decomp5 (rows cols th tw c k : Nat) (hk : k < rows * th * cols * tw * c) :
    k / c / tw / cols / th < rows ∧
    k / c / tw / cols % th < th ∧
    k / c / tw % cols < cols ∧
    k / c % tw < tw ∧
    k % c < c ∧
    (((k / c / tw / cols / th * th + k / c / tw / cols % th) * cols
      + k / c / tw % cols) * tw + k / c % tw) * c + k % c = k := by
  have hpos : 0 < rows * th * cols * tw * c := Nat.lt_of_le_of_lt (Nat.zero_le _) hk
  have hc : 0 < c := by
    rcases Nat.eq_zero_or_pos c with h0 | h1
    · rw [h0, Nat.mul_zero] at hpos; omega
    · exact h1
  have htw : 0 < tw := by
    rcases Nat.eq_zero_or_pos tw with h0 | h1
    · rw [h0, Nat.mul_zero, Nat.zero_mul] at hpos; omega
    · exact h1
  have hcols : 0 < cols := by
    rcases Nat.eq_zero_or_pos cols with h0 | h1
    · rw [h0, Nat.mul_zero, Nat.zero_mul, Nat.zero_mul] at hpos; omega
    · exact h1
  have hth : 0 < th := by
    rcases Nat.eq_zero_or_pos th with h0 | h1
    · rw [h0, Nat.mul_zero, Nat.zero_mul, Nat.zero_mul, Nat.zero_mul] at hpos
      omega
    · exact h1
  have h1 : k / c < rows * th * cols * tw := (Nat.div_lt_iff_lt_mul hc).mpr hk
  have h2 : k / c / tw < rows * th * cols := (Nat.div_lt_iff_lt_mul htw).mpr h1
  have h3 : k / c / tw / cols < rows * th := (Nat.div_lt_iff_lt_mul hcols).mpr h2
  have h4 : k / c / tw / cols / th < rows := (Nat.div_lt_iff_lt_mul hth).mpr h3
  refine ⟨h4, Nat.mod_lt _ hth, Nat.mod_lt _ hcols, Nat.mod_lt _ htw,
    Nat.mod_lt _ hc, ?_⟩
  rw [div_mul_add_mod (k / c / tw / cols) th, div_mul_add_mod (k / c / tw) cols,
    div_mul_add_mod (k / c) tw, div_mul_add_mod k c]

/-- Extensionality of lists of naturals through `getD`. -/
theorem ext_getD {l1 l2 : List Nat} (hlen : l1.length = l2.length)
    (h : ∀ j, j < l1.length → l1.getD j 0 = l2.getD j 0) : l1 = l2 := by
  apply List.ext_getElem hlen
  intro n h1 h2
  have hn := h n h1
  rwa [List.getD_eq_getElem _ _ h1, List.getD_eq_getElem _ _ h2] at hn

/-- C7: identity law — for positive tile dimensions dividing the image
dimensions, rearranging with the identity ordering `[0, ..., N-1]` returns
a buffer byte-identical to the input. -/
theorem c7_identity (img : ImageBuffer) (thN twN : Nat)
    (wf : img.wf) (hth : 0 < thN) (htw : 0 < twN)
    (hdh : thN ∣ img.h) (hdw : twN ∣ img.w) :
    rearrange_tiles img ((thN : Int), (twN : Int))
      (identity_ordering ((img.h / thN) * (img.w / twN))) = .ok img := by
  obtain ⟨grid, hre, hglen, hchar⟩ :=
    rearrange_tiles_ok img thN twN (identity_ordering ((img.h / thN) * (img.w / twN)))
      hth htw hdh hdw (identity_ordering_valid img thN twN hth htw hdh hdw)
  rw [hre]
  congr 1
  have hsz : (img.h / thN) * thN * (img.w / twN) * twN * img.c
      = img.h * img.w * img.c := by
    have e1 : img.h / thN * thN = img.h := Nat.div_mul_cancel hdh
    have e2 : img.w / twN * twN = img.w := Nat.div_mul_cancel hdw
    calc (img.h / thN) * thN * (img.w / twN) * twN * img.c
        = ((img.h / thN) * thN) * ((img.w / twN) * twN) * img.c := by ring
      _ = img.h * img.w * img.c := by rw [e1, e2]
  have hdata : assemble (img.h / thN) (img.w / twN) thN twN img.c grid
      = img.data := by
    apply ext_getD
    · rw [assemble, List.length_ofFn, hsz, wf]
    · intro k hk
      rw [assemble, List.length_ofFn] at hk
      obtain ⟨hr, hy, hcol, hx, hch, hrec⟩ :=
        decomp5 (img.h / thN) (img.w / twN) thN twN img.c k hk
      have hkdata : k < img.data.length := by rw [wf, ← hsz]; exact hk
      rw [show (assemble (img.h / thN) (img.w / twN) thN twN img.c grid).getD k 0
          = (assemble (img.h / thN) (img.w / twN) thN twN img.c grid).getD
            ((((k / img.c / twN / (img.w / twN) / thN * thN
              + k / img.c / twN / (img.w / twN) % thN) * (img.w / twN)
              + k / img.c / twN % (img.w / twN)) * twN + k / img.c % twN) * img.c
              + k % img.c) 0 by rw [hrec]]
      rw [assemble_pixel (img.h / thN) (img.w / twN) thN twN img.c img.data
        (identity_ordering ((img.h / thN) * (img.w / twN))) grid hchar
        hr hy hcol hx hch]
      rw [identity_ordering_getD (pack_lt hr hcol), Int.toNat_natCast,
        pack_div _ hcol, pack_mod _ hcol, hrec]
  rw [hdata]

/-- Witness for C7 at a concrete input: 4x4 image, 2x2 tiles. -/
theorem c7_identity_witness :
    rearrange_tiles img44 (2, 2) (identity_ordering ((img44.h / 2) * (img44.w / 2)))
      = .ok img44 :=
  c7_identity img44 2 2 (by rfl) (by decide) (by decide) (by decide) (by decide)

/-! ### C6 -/

/-- A left inverse of a permutation (in the sense `q[p[i]] = i`) is also a
right inverse: `p[q[s]] = s`, because the values of `p` cover all of
`{0, ..., N-1}`. -/
theorem inverse_flip (p q : List Int) (N : Nat)
    (hpset : p.toFinset = pyRange ((N : Nat) : Int))
    (hinv : ∀ i, i < p.length → q.getD (p.getD i 0).toNat 0 = (i : Int))
    (s : Nat) (hs : s < N) :
    p.getD (q.getD s 0).toNat 0 = (s : Int) := by
  have hmem : (s : Int) ∈ p.toFinset := by
    rw [hpset, mem_pyRange]
    exact ⟨by omega, by exact_mod_cast hs⟩
  rw [List.mem_toFinset] at hmem
  obtain ⟨⟨i, hi⟩, hpi⟩ := List.mem_iff_get.mp hmem
  have hgi : p.getD i 0 = (s : Int) := by
    rw [List.getD_eq_getElem _ _ hi]
    exact (List.get_eq_getElem p ⟨i, hi⟩).symm.trans hpi
  have hq := hinv i hi
  rw [hgi, Int.toNat_natCast] at hq
  rw [hq, Int.toNat_natCast, hgi]

/-- C6: round-trip law — with positive tile dimensions dividing the image
dimensions, applying a validated ordering `p` and then a validated
ordering `q` that is inverse to it (`q[p[i]] = i`) returns the original
buffer. -/
theorem c6_round_trip (img : ImageBuffer) (thN twN : Nat) (p q : List Int)
    (wf : img.wf) (hth : 0 < thN) (htw : 0 < twN)
    (hdh : thN ∣ img.h) (hdw : twN ∣ img.w)
    (hvp : valid_input img.size ((thN : Int), (twN : Int)) p = .ok true)
    (hvq : valid_input img.size ((thN : Int), (twN : Int)) q = .ok true)
    (hinv : ∀ i, i < p.length → q.getD (p.getD i 0).toNat 0 = (i : Int)) :
    ∃ mid, rearrange_tiles img ((thN : Int), (twN : Int)) p = .ok mid ∧
      rearrange_tiles mid ((thN : Int), (twN : Int)) q = .ok img := by
  obtain ⟨hplen, hpmem, hpnd, hpset⟩ := valid_facts img thN twN p hth htw hdh hdw hvp
  obtain ⟨hqlen, hqmem, hqnd, hqset⟩ := valid_facts img thN twN q hth htw hdh hdw hvq
  obtain ⟨gp, hrep, hgplen, hgpchar⟩ :=
    rearrange_tiles_ok img thN twN p hth htw hdh hdw hvp
  refine ⟨_, hrep, ?_⟩
  obtain ⟨gq, hreq, hgqlen, hgqchar⟩ :=
    rearrange_tiles_ok
      ⟨img.h, img.w, img.c, assemble (img.h / thN) (img.w / twN) thN twN img.c gp⟩
      thN twN q hth htw hdh hdw hvq
  rw [hreq]
  have hsz : (img.h / thN) * thN * (img.w / twN) * twN * img.c
      = img.h * img.w * img.c := by
    have e1 : img.h / thN * thN = img.h := Nat.div_mul_cancel hdh
    have e2 : img.w / twN * twN = img.w := Nat.div_mul_cancel hdw
    calc (img.h / thN) * thN * (img.w / twN) * twN * img.c
        = ((img.h / thN) * thN) * ((img.w / twN) * twN) * img.c := by ring
      _ = img.h * img.w * img.c := by rw [e1, e2]
  have hdata : assemble (img.h / thN) (img.w / twN) thN twN img.c gq
      = img.data := by
    apply ext_getD
    · rw [assemble, List.length_ofFn, hsz, wf]
    · intro k hk
      rw [assemble, List.length_ofFn] at hk
      obtain ⟨hr, hy, hcol, hx, hch, hrec⟩ :=
        decomp5 (img.h / thN) (img.w / twN) thN twN img.c k hk
      have h5 : 0 < (img.h / thN) * thN * (img.w / twN) * twN * img.c :=
        Nat.lt_of_le_of_lt (Nat.zero_le _) hk
      have hcolspos : 0 < img.w / twN := by
        rcases Nat.eq_zero_or_pos (img.w / twN) with h0 | h1
        · rw [h0, Nat.mul_zero, Nat.zero_mul, Nat.zero_mul] at h5; omega
        · exact h1
      have hslt : (k / img.c / twN / (img.w / twN) / thN) * (img.w / twN)
          + k / img.c / twN % (img.w / twN) < (img.h / thN) * (img.w / twN) :=
        pack_lt hr hcol
      -- the source slot named by q at this destination slot
      have hoq : 0 ≤ q.getD ((k / img.c / twN / (img.w / twN) / thN) * (img.w / twN)
            + k / img.c / twN % (img.w / twN)) 0
          ∧ q.getD ((k / img.c / twN / (img.w / twN) / thN) * (img.w / twN)
            + k / img.c / twN % (img.w / twN)) 0
            < (((img.h / thN) * (img.w / twN) : Nat) : Int) := by
        apply hqmem
        rw [List.getD_eq_getElem _ _ (by rw [hqlen]; exact hslt)]
        exact List.getElem_mem _
      have hoqlt : (q.getD ((k / img.c / twN / (img.w / twN) / thN) * (img.w / twN)
            + k / img.c / twN % (img.w / twN)) 0).toNat
          < (img.h / thN) * (img.w / twN) := by omega
      have hr2 : (q.getD ((k / img.c / twN / (img.w / twN) / thN) * (img.w / twN)
            + k / img.c / twN % (img.w / twN)) 0).toNat / (img.w / twN)
          < img.h / thN := (Nat.div_lt_iff_lt_mul hcolspos).mpr hoqlt
      have hcol2 : (q.getD ((k / img.c / twN / (img.w / twN) / thN) * (img.w / twN)
            + k / img.c / twN % (img.w / twN)) 0).toNat % (img.w / twN)
          < img.w / twN := Nat.mod_lt _ hcolspos
      rw [show (assemble (img.h / thN) (img.w / twN) thN twN img.c gq).getD k 0
          = (assemble (img.h / thN) (img.w / twN) thN twN img.c gq).getD
            ((((k / img.c / twN / (img.w / twN) / thN * thN
              + k / img.c / twN / (img.w / twN) % thN) * (img.w / twN)
              + k / img.c / twN % (img.w / twN)) * twN + k / img.c % twN) * img.c
              + k % img.c) 0 by rw [hrec]]
      rw [assemble_pixel (img.h / thN) (img.w / twN) thN twN img.c
        (assemble (img.h / thN) (img.w / twN) thN twN img.c gp) q gq hgqchar
        hr hy hcol hx hch]
      rw [assemble_pixel (img.h / thN) (img.w / twN) thN twN img.c
        img.data p gp hgpchar hr2 hy hcol2 hx hch]
      rw [div_mul_add_mod _ (img.w / twN)]
      rw [inverse_flip p q ((img.h / thN) * (img.w / twN)) hpset hinv _ hslt,
        Int.toNat_natCast, pack_div _ hcol, pack_mod _ hcol, hrec]
  rw [hdata]

/-- Witness for C6 at a concrete input: the 4-cycle [1,2,3,0] and its
inverse [3,0,1,2] on the 4x4 image with 2x2 tiles. -/
theorem c6_round_trip_witness :
    ∃ mid, rearrange_tiles img44 (2, 2) [1, 2, 3, 0] = .ok mid ∧
      rearrange_tiles mid (2, 2) [3, 0, 1, 2] = .ok img44 :=
  c6_round_trip img44 2 2 [1, 2, 3, 0] [3, 0, 1, 2] (by rfl) (by decide)
    (by decide) (by decide) (by decide) (by decide) (by decide)
    (fun i hi => by
      have h4 : i < 4 := by simpa using hi
      interval_cases i <;> decide)

/-! ### C3 -/

/-- C3 as stated is false on two counts: the fixed message in the source
has no trailing period, unlike the message quoted by the claim; and on
image 4x6 with tile size (4, 2) and ordering [2,0,1] validation passes yet
`rearrange_tiles` raises numpy's reshape `ValueError` (not
InvalidArrangement), so InvalidArrangement is not the only core error and
a true validation does not guarantee completion. -/
theorem c3_counterexample :
    rearrange_tiles img44 (2, 2) [0, 1, 2, 4] = .error (.valueError invalid_msg) ∧
      invalid_msg ≠ "The tile size or ordering are not valid for the given image." ∧
      valid_input ((4 : Int), (6 : Int)) ((4 : Int), (2 : Int)) [2, 0, 1] = .ok true ∧
      rearrange_tiles img64 (4, 2) [2, 0, 1] = .error .reshapeError :=
  ⟨by decide, by decide, by decide, by decide⟩

/-- C3 (amended): `rearrange_tiles` raises the `ValueError` with the fixed
message "The tile size or ordering are not valid for the given image" (no
trailing period) exactly when `valid_input` returns false, and does so
before any output is produced; when `valid_input` returns true and the
tile dimensions are positive and divide the image dimensions it completes
without error (otherwise it may raise a different, reshape `ValueError`). -/
theorem c3_invalid_arrangement (img : ImageBuffer) (t : Int × Int) (ord : List Int) :
    (rearrange_tiles img t ord = .error (.valueError invalid_msg) ↔
      valid_input img.size t ord = .ok false) ∧
    (∀ thN twN : Nat, t = ((thN : Int), (twN : Int)) → 0 < thN → 0 < twN →
      thN ∣ img.h → twN ∣ img.w →
      valid_input img.size t ord = .ok true →
      ∃ out, rearrange_tiles img t ord = .ok out) := by
  constructor
  · constructor
    · intro h
      rw [rearrange_tiles] at h
      rcases hv : valid_input img.size t ord with e | b
      · rw [hv] at h
        have he : e = .zeroDivisionError := by
          rw [valid_input] at hv
          split at hv
          · rw [Except.error.injEq] at hv; exact hv.symm
          · exact absurd hv (by simp)
        simp only at h
        rw [Except.error.injEq] at h
        rw [he] at h
        exact absurd h (by simp)
      · cases b
        · rfl
        · rw [hv] at h
          simp only at h
          split at h
          · exact absurd h (by simp)
          · split at h
            · exact absurd h (by simp)
            · split at h
              · rename_i scrut e heq
                rw [Except.error.injEq] at h
                rw [h] at heq
                exact absurd heq
                  (loopGo_no_valueError _ _ _ _ _ ord 0 _ invalid_msg)
              · exact absurd h (by simp)
    · intro hv
      rw [rearrange_tiles, hv]
  · rintro thN twN rfl hth htw hdh hdw hv
    obtain ⟨grid, hre, -, -⟩ := rearrange_tiles_ok img thN twN ord hth htw hdh hdw hv
    exact ⟨_, hre⟩

/-- Witness for C3 at concrete inputs: an invalid ordering yields exactly
the fixed-message error, and a valid one on dividing tile dims completes. -/
theorem c3_invalid_arrangement_witness :
    rearrange_tiles img44 (2, 2) [0, 1, 2, 4] = .error (.valueError invalid_msg) ∧
      ∃ out, rearrange_tiles img44 (2, 2) [0, 1, 2, 3] = .ok out :=
  ⟨(c3_invalid_arrangement img44 (2, 2) [0, 1, 2, 4]).1.mpr (by decide),
   (c3_invalid_arrangement img44 (2, 2) [0, 1, 2, 3]).2 2 2 rfl (by decide)
     (by decide) (by decide) (by decide) (by decide)⟩

/-! ### C9 -/

/-- C9: the rearrangement loop — the only writing step of the core — never
touches the source array component of its state: whenever it completes,
the source pixels it returns are exactly the ones it was given, every
write having gone to the separate, zero-initialised destination grid. -/
theorem c9_no_input_mutation (rows cols th tw c : Nat) (l : List Int) :
    ∀ (i : Nat) (st st' : List Nat × List (List Nat)),
      loopGo rows cols th tw c i l st = .ok st' → st'.1 = st.1 := by
  induction l with
  | nil =>
    intro i st st' h
    rw [loopGo, Except.ok.injEq] at h
    rw [← h]
  | cons o rest ih =>
    intro i st st' h
    rw [loopGo] at h
    split at h
    · exact absurd h (by simp)
    · split at h
      · exact absurd h (by simp)
      · split at h
        · exact absurd h (by simp)
        · have hpres := ih (i + 1) _ st' h
          exact hpres

/-- Witness for C9 at a concrete run of the loop. -/
theorem c9_no_input_mutation_witness :
    loopGo 2 2 2 2 1 0 [3, 2, 1, 0]
        (img44.data, List.replicate 4 (List.replicate 4 0))
      = .ok (img44.data,
          [[10, 11, 14, 15], [8, 9, 12, 13], [2, 3, 6, 7], [0, 1, 4, 5]]) ∧
      (img44.data,
        ([[10, 11, 14, 15], [8, 9, 12, 13], [2, 3, 6, 7], [0, 1, 4, 5]]
          : List (List Nat))).1 = img44.data :=
  ⟨by decide,
   c9_no_input_mutation 2 2 2 2 1 [3, 2, 1, 0] 0
     (img44.data, List.replicate 4 (List.replicate 4 0))
     (img44.data, [[10, 11, 14, 15], [8, 9, 12, 13], [2, 3, 6, 7], [0, 1, 4, 5]])
     (by decide)⟩
